/-
Verification of the transcript-aggregation core of the `nextjs-vercel`
voice-agent demo (files `src/components/VoiceAgentDemo.tsx` and
`src/app/api/authorize/route.ts`).

The TypeScript code is shallowly embedded as follows:
* JavaScript numbers appearing as transcript counters are modelled by
  `JsNumber`: an integer or `NaN`.  The claims only exercise
  integer-valued counters; non-integer numeric strings (e.g. "1.5") are
  conservatively mapped to `nan` by the `Number(·)` model, which does not
  affect any branch decision in the embedded code (the fallback test in
  `updateUserTranscript` only distinguishes `undefined`).
* A JavaScript `Map` is modelled as an insertion-ordered association list
  with the `Map`-specific SameValueZero key equality (under which
  `NaN = NaN`, matching `DecidableEq JsNumber`).
* `Array.prototype.sort` with comparator `(a, b) => a - b` is modelled by
  a stable insertion sort whose boolean "comparator ≤ 0" test treats any
  comparison involving `NaN` as `0` (ECMAScript coerces a `NaN`
  comparator result to `+0`; for inconsistent comparators the resulting
  order is implementation-defined, and the stable sort below is one
  faithful choice).
* React state updates (`setMessages`, `useRef` mutation) are sequenced
  into an explicit state record `ProcState` threaded through the
  handlers; each inbound event is processed to completion, matching the
  single-threaded event model.
-/
import Mathlib

namespace VoiceAgent

/-- A JavaScript number as used for transcript counters: an integer or
`NaN`.  (`src/components/VoiceAgentDemo.tsx`, field `delta_counter`.) -/
inductive JsNumber where
  | nan : JsNumber
  | int (n : Int) : JsNumber
deriving DecidableEq, Repr

/-- A loosely-typed JavaScript value that may appear in an event field:
a string or a number.  (`turn_id?: string | number`.) -/
inductive JsVal where
  | str (s : String) : JsVal
  | num (n : JsNumber) : JsVal
deriving DecidableEq, Repr

/-- JavaScript `String(v)` on a turn-id value: strings pass through,
integer-valued numbers render in decimal, `NaN` renders as "NaN". -/
def jsToString : JsVal → String
  | .str s => s
  | .num (.int n) => toString n
  | .num .nan => "NaN"

/-- ASCII whitespace, for the trimming `Number(s)` performs. -/
def isWs (c : Char) : Bool :=
  c = ' ' ∨ c = '\t' ∨ c = '\n' ∨ c = '\r'

/-- A non-empty all-digit character run read as a natural number. -/
def digitsToNat (cs : List Char) : Option Nat :=
  if cs = [] then none
  else if cs.all Char.isDigit then
    some (cs.foldl (fun n c => n * 10 + (c.toNat - '0'.toNat)) 0)
  else none

/-- JavaScript `Number(s)` on a string, restricted to the values the
claims exercise: an all-whitespace (or empty) string is `0`, an
optionally signed decimal integer literal is that integer, anything
else is `NaN`.  (Non-integer numeric literals such as "1.5" are mapped
to `nan`; this never changes which branch `updateUserTranscript` takes,
since its fallback test only distinguishes `undefined`.) -/
def jsNumberOfString (s : String) : JsNumber :=
  match (s.toList.dropWhile isWs).reverse.dropWhile isWs |>.reverse with
  | [] => .int 0
  | '-' :: ds =>
      match digitsToNat ds with
      | some n => .int (-(n : Int))
      | none => .nan
  | '+' :: ds =>
      match digitsToNat ds with
      | some n => .int n
      | none => .nan
  | ds =>
      match digitsToNat ds with
      | some n => .int n
      | none => .nan

/-- JavaScript `haystack.includes(needle)` (substring test), used by the
authorize route's error handler. -/
def jsIncludes (haystack needle : String) : Bool :=
  decide (needle.toList <:+: haystack.toList)

/-! ### JavaScript `Map` as an insertion-ordered association list -/

/-- `Map.prototype.get`. -/
def mapGet {α β : Type} [DecidableEq α] (m : List (α × β)) (k : α) : Option β :=
  match m with
  | [] => none
  | (k', v) :: rest => if k' = k then some v else mapGet rest k

/-- `Map.prototype.set`: update in place if the key is present
(SameValueZero equality), otherwise append at the end, preserving the
iteration (insertion) order. -/
def mapSet {α β : Type} [DecidableEq α] (m : List (α × β)) (k : α) (v : β) :
    List (α × β) :=
  match m with
  | [] => [(k, v)]
  | (k', v') :: rest =>
      if k' = k then (k', v) :: rest else (k', v') :: mapSet rest k v

/-- `Map.prototype.delete` (by-key removal; a no-op when the key is
absent). -/
def mapDelete {α β : Type} [DecidableEq α] (m : List (α × β)) (k : α) :
    List (α × β) :=
  match m with
  | [] => []
  | (k', v) :: rest =>
      if k' = k then mapDelete rest k else (k', v) :: mapDelete rest k

/-! ### Stable sort modelling `Array.prototype.sort` -/

/-- Insert `a` into `l` before the first element `b` with `le a b`;
together with `insertionSortBy` this is a stable sort. -/
def orderedInsertBy {α : Type} (le : α → α → Bool) (a : α) : List α → List α
  | [] => [a]
  | b :: l => if le a b then a :: b :: l else b :: orderedInsertBy le a l

/-- Stable insertion sort; models `Array.prototype.sort(cmp)` for a
consistent comparator (ECMAScript then pins the result to the unique
stable sorted order). -/
def insertionSortBy {α : Type} (le : α → α → Bool) : List α → List α
  | [] => []
  | a :: l => orderedInsertBy le a (insertionSortBy le l)

/-- The boolean reading "comparator result ≤ 0" of the JS comparator
`(a, b) => a - b` on counters: `NaN` arithmetic yields `NaN`, which
ECMAScript's sort coerces to `+0`, hence `true` here. -/
def jsCmpLe : JsNumber → JsNumber → Bool
  | .int x, .int y => x ≤ y
  | _, _ => true

/-! ### Data model (`VoiceAgentDemo.tsx`) -/

/-- `type Role = 'user' | 'assistant' | 'system'`. -/
inductive Role where
  | user | assistant | system
deriving DecidableEq, Repr

/-- `type TranscriptChunk = { counter: number; text: string }`. -/
structure TranscriptChunk where
  counter : JsNumber
  text : String
deriving DecidableEq, Repr

/-- `type Message = { role; text; turnId?; chunks? }`. -/
structure Message where
  role : Role
  text : String
  turnId : Option String := none
  chunks : Option (List TranscriptChunk) := none
deriving DecidableEq, Repr

/-- `type AgentEvent = { type?; turn_id?; delta_counter?; content? }`.
`content` is further checked by `typeof === 'string'`, so it is kept as
a `JsVal`. -/
structure AgentEvent where
  type : Option String := none
  turn_id : Option JsVal := none
  delta_counter : Option JsVal := none
  content : Option JsVal := none
deriving DecidableEq, Repr

/-- `type TurnChunkMap = Map<string, Map<number, string>>`
(`userChunksByTurn`). -/
abbrev TurnChunkMap : Type := List (String × List (JsNumber × String))

/-- The session-scoped mutable state the event handlers touch: the
`messages` React state and the `userChunksByTurn` ref. -/
structure ProcState where
  chunkStore : TurnChunkMap
  messages : List Message
deriving DecidableEq

/-- Initial state: empty chunk store, empty message list. -/
def ProcState.init : ProcState := ⟨[], []⟩

/-! ### Handlers (`VoiceAgentDemo.tsx`) -/

/-- The in-place update `findIndex` + `copy[index] = …` performs inside
`upsertMessage`: replace the first element satisfying `p` with its image
under `upd`; `none` when no element matches (the `index === -1` case). -/
def updateFirst {α : Type} (p : α → Bool) (upd : α → α) :
    List α → Option (List α)
  | [] => none
  | a :: rest =>
      if p a then some (upd a :: rest)
      else (updateFirst p upd rest).map (a :: ·)

/-- The record update `copy[index] = { ...current, text, chunks }`
performed on a located message: `text` is replaced (or accumulated) and
`chunks` is `next.chunks ?? current.chunks`. -/
def upsertUpdate (next : Message) (replace : Bool) (current : Message) :
    Message :=
  { current with
    text := if replace then next.text else current.text ++ next.text
    chunks := match next.chunks with
      | some cs => some cs
      | none => current.chunks }

/-- `upsertMessage(next, opts)`.  `replace = true` models
`opts.replace`; a missing or empty (falsy) `turnId` appends; otherwise
the first message with the same `(turnId, role)` is updated in place. -/
def upsertMessage (next : Message) (replace : Bool) (prev : List Message) :
    List Message :=
  match next.turnId with
  | none => prev ++ [next]
  | some t =>
      if t = "" then prev ++ [next]
      else
        match updateFirst
            (fun m => m.turnId = some t ∧ m.role = next.role)
            (upsertUpdate next replace) prev with
        | some updated => updated
        | none => prev ++ [next]

/-- `clearTurn(turnId)`: drop the turn's sub-map from the chunk store. -/
def clearTurn (turnId : String) (store : TurnChunkMap) : TurnChunkMap :=
  mapDelete store turnId

/-- `typeof event.content === 'string' ? event.content : ''`. -/
def eventContent (event : AgentEvent) : String :=
  match event.content with
  | some (.str c) => c
  | _ => ""

/-- `typeof rawCounter === 'number' ? rawCounter : Number(rawCounter)`,
for a present `delta_counter`. -/
def coerceCounter : JsVal → JsNumber
  | .num n => n
  | .str s => jsNumberOfString s

/-- `[...turnMap.entries()].sort(([a], [b]) => a - b)`: the entries in
insertion order, stably sorted by the numeric comparator. -/
def sortEntries (l : List (JsNumber × String)) : List (JsNumber × String) :=
  insertionSortBy (fun a b => jsCmpLe a.1 b.1) l

/-- `updateUserTranscript(event)`.  The guard `!turnId` is JS
truthiness: `turnId` is falsy when `turn_id` is absent or coerces to the
empty string. -/
def updateUserTranscript (event : AgentEvent) (s : ProcState) : ProcState :=
  let turnId : Option String := event.turn_id.map jsToString
  let content : String := eventContent event
  let counter : Option JsNumber := event.delta_counter.map coerceCounter
  match turnId, counter with
  | some t, some c =>
      if t = "" then
        -- `!turnId` is true for the empty string: fallback path, and
        -- `if (turnId) clearTurn(turnId)` does not fire.
        { s with messages :=
            upsertMessage ⟨.user, content, some t, some []⟩ true s.messages }
      else
        let turnMap := (mapGet s.chunkStore t).getD []
        let turnMap := mapSet turnMap c content
        let chunks : List TranscriptChunk :=
          (sortEntries turnMap).map (fun p => { counter := p.1, text := p.2 })
        let aggregatedText := String.join (chunks.map (·.text))
        { chunkStore := mapSet s.chunkStore t turnMap
          messages :=
            upsertMessage ⟨.user, aggregatedText, some t, some chunks⟩ true
              s.messages }
  | turnId, _ =>
      -- `!turnId || counter === undefined`: fallback full replacement.
      let store := match turnId with
        | some t => if t = "" then s.chunkStore else clearTurn t s.chunkStore
        | none => s.chunkStore
      { chunkStore := store
        messages :=
          upsertMessage ⟨.user, content, turnId, some []⟩ true s.messages }

/-- `appendAssistantMessage(event)`: upsert in accumulate mode, with no
`chunks` field. -/
def appendAssistantMessage (event : AgentEvent) (s : ProcState) : ProcState :=
  let next : Message :=
    ⟨.assistant, eventContent event, event.turn_id.map jsToString, none⟩
  { s with messages := upsertMessage next false s.messages }

/-- `handleAgentMessage(evt)`: the event dispatcher.  A missing (or
empty, hence falsy) `type` returns immediately; `turn.end` with a
present `turn_id` clears that turn's chunks; delta events go to the
transcript aggregator; `response.text` goes to the assistant path; any
other type falls through with no state change. -/
def handleAgentMessage (evt : AgentEvent) (s : ProcState) : ProcState :=
  match evt.type with
  | none => s
  | some ty =>
      if ty = "" then s
      else if ty = "turn.end" then
        match evt.turn_id with
        | some v => { s with chunkStore := clearTurn (jsToString v) s.chunkStore }
        | none => s
      else if ty = "user.transcript.delta" ∨ ty = "user.transcript.interim_delta" then
        updateUserTranscript evt s
      else if ty = "response.text" then
        appendAssistantMessage evt s
      else s

/-- Process a sequence of inbound events, one at a time, in order. -/
def processEvents (events : List AgentEvent) (s : ProcState) : ProcState :=
  events.foldl (fun s e => handleAgentMessage e s) s

/-! ### Session lifecycle (`VoiceAgentDemo.tsx`) -/

/-- The UI-controller state the lifecycle handlers touch: the processing
state plus `isSessionActive` and the `error` banner. -/
structure UiState where
  proc : ProcState
  isSessionActive : Bool
  error : Option String
deriving DecidableEq

/-- `onDisconnect`: deactivate the session, clear `userChunksByTurn`,
and append a system "Disconnected" message.  The message list itself is
not cleared here. -/
def onDisconnect (s : UiState) : UiState :=
  { proc := { chunkStore := [],
              messages := s.proc.messages ++ [{ role := .system, text := "Disconnected" }] }
    isSessionActive := false
    error := s.error }

/-- `handleConnectClick` (up to the `await connect()` call): when
connecting is allowed, clear the chunk store, reset the message list to
empty and dismiss the error banner.  `isConnecting` models
`status === 'connecting'`. -/
def handleConnectClick (isConnecting : Bool) (s : UiState) : UiState :=
  if s.isSessionActive ∨ isConnecting then s
  else { proc := { chunkStore := [], messages := [] }
         isSessionActive := s.isSessionActive
         error := none }

/-! ### Authorize route (`src/app/api/authorize/route.ts`) -/

/-- A structured HTTP response produced by the route: a status code and
a JSON body, here either `{ error: … }` or the relayed success
payload. -/
structure AuthResponse where
  status : Nat
  body : String
deriving DecidableEq, Repr

/-- Outcome of the upstream `fetch` to the authorization service, as the
route observes it: a successful JSON payload, a non-ok HTTP response
carrying its body text and status text, or a thrown error (network
failure etc.) with a message. -/
inductive UpstreamResult where
  | ok (payload : String)
  | httpError (bodyText statusText : String)
  | thrown (message : String)
deriving DecidableEq, Repr

/-- The `catch` block of the route's `POST` handler, applied to the
caught error's `.message`: an insufficient-balance substring match is
remapped to status 402 with the fixed error code, anything else to
status 500 with the upstream message.  (`error.message && …` guards the
substring test with JS truthiness.) -/
def authorizeCatch (message : String) : AuthResponse :=
  if message ≠ "" ∧ jsIncludes message "insufficient_balance" then
    { status := 402, body := "insufficient_balance" }
  else
    { status := 500, body := message }

/-- The `try`/`catch` core of the `POST` handler, as a function of the
upstream result: relay success; a non-ok response throws
`new Error(text || response.statusText)` which the `catch` converts; a
thrown error is converted directly. -/
def postAuthorize : UpstreamResult → AuthResponse
  | .ok payload => { status := 200, body := payload }
  | .httpError bodyText statusText =>
      authorizeCatch (if bodyText = "" then statusText else bodyText)
  | .thrown message => authorizeCatch message

/-! ### Association-list (`Map`) lemmas -/

section MapLemmas

variable {α β : Type} [DecidableEq α]

theorem mapGet_mapSet_self (m : List (α × β)) (k : α) (v : β) :
    mapGet (mapSet m k v) k = some v := by
  induction m with
  | nil => simp [mapGet, mapSet]
  | cons p rest ih =>
      by_cases h : p.1 = k
      · simp [mapGet, mapSet, h]
      · simp [mapGet, mapSet, h, ih]

theorem mapSet_mapSet_self (m : List (α × β)) (k : α) (v₁ v₂ : β) :
    mapSet (mapSet m k v₁) k v₂ = mapSet m k v₂ := by
  induction m with
  | nil => simp [mapSet]
  | cons p rest ih =>
      by_cases h : p.1 = k
      · simp [mapSet, h]
      · simp [mapSet, h, ih]

theorem mapSet_ne_nil (m : List (α × β)) (k : α) (v : β) :
    mapSet m k v ≠ [] := by
  cases m with
  | nil => simp [mapSet]
  | cons p rest =>
      by_cases h : p.1 = k <;> simp [mapSet, h]

theorem mapGet_mapDelete_self (m : List (α × β)) (k : α) :
    mapGet (mapDelete m k) k = none := by
  induction m with
  | nil => simp [mapGet, mapDelete]
  | cons p rest ih =>
      by_cases h : p.1 = k
      · simp [mapDelete, h, ih]
      · simp [mapGet, mapDelete, h, ih]

theorem mapGet_eq_none_iff (m : List (α × β)) (k : α) :
    mapGet m k = none ↔ k ∉ m.map Prod.fst := by
  induction m with
  | nil => simp [mapGet]
  | cons p rest ih =>
      by_cases h : p.1 = k
      · simp [mapGet, h]
      · simp [mapGet, h, ih, Ne.symm h]

theorem mapSet_of_get_none (m : List (α × β)) (k : α) (v : β)
    (h : mapGet m k = none) : mapSet m k v = m ++ [(k, v)] := by
  induction m with
  | nil => simp [mapSet]
  | cons p rest ih =>
      by_cases hk : p.1 = k
      · simp [mapGet, hk] at h
      · simp [mapGet, hk] at h
        simp [mapSet, hk, ih h]

end MapLemmas

/-! ### Sorting lemmas -/

section SortLemmas

variable {α : Type} (le : α → α → Bool)

theorem perm_orderedInsertBy (a : α) (l : List α) :
    (orderedInsertBy le a l).Perm (a :: l) := by
  induction l with
  | nil => simp [orderedInsertBy]
  | cons b l ih =>
      by_cases h : le a b
      · simp [orderedInsertBy, h]
      · simp only [orderedInsertBy, h, Bool.false_eq_true, if_false]
        exact (ih.cons b).trans (List.Perm.swap a b l)

theorem perm_insertionSortBy (l : List α) :
    (insertionSortBy le l).Perm l := by
  induction l with
  | nil => simp [insertionSortBy]
  | cons a l ih =>
      exact (perm_orderedInsertBy le a (insertionSortBy le l)).trans (ih.cons a)

theorem mem_orderedInsertBy {a x : α} {l : List α}
    (h : x ∈ orderedInsertBy le a l) : x = a ∨ x ∈ l := by
  have := (perm_orderedInsertBy le a l).mem_iff.mp h
  simpa using this

theorem pairwise_orderedInsertBy
    (htot : ∀ x y, le x y = false → le y x = true)
    (htrans : ∀ x y z, le x y = true → le y z = true → le x z = true)
    (a : α) {l : List α} (h : l.Pairwise (fun x y => le x y = true)) :
    (orderedInsertBy le a l).Pairwise (fun x y => le x y = true) := by
  induction l with
  | nil => simp [orderedInsertBy]
  | cons b l ih =>
      by_cases hab : le a b
      · simp only [orderedInsertBy, hab, if_true]
        refine List.Pairwise.cons ?_ h
        intro y hy
        rcases List.mem_cons.mp hy with hyb | hyl
        · rw [hyb]; exact hab
        · exact htrans a b y hab (List.rel_of_pairwise_cons h hyl)
      · simp only [orderedInsertBy, hab, Bool.false_eq_true, if_false]
        refine List.Pairwise.cons ?_ (ih h.tail)
        intro y hy
        rcases mem_orderedInsertBy le hy with hya | hyl
        · rw [hya]; exact htot a b (by simpa using hab)
        · exact List.rel_of_pairwise_cons h hyl

theorem pairwise_insertionSortBy
    (htot : ∀ x y, le x y = false → le y x = true)
    (htrans : ∀ x y z, le x y = true → le y z = true → le x z = true)
    (l : List α) :
    (insertionSortBy le l).Pairwise (fun x y => le x y = true) := by
  induction l with
  | nil => simp [insertionSortBy]
  | cons a l ih =>
      exact pairwise_orderedInsertBy le htot htrans a ih

theorem insertionSortBy_of_pairwise {l : List α}
    (h : l.Pairwise (fun x y => le x y = true)) :
    insertionSortBy le l = l := by
  induction l with
  | nil => rfl
  | cons a l ih =>
      have hrest : insertionSortBy le l = l := ih h.tail
      rw [insertionSortBy, hrest]
      cases l with
      | nil => rfl
      | cons b l' =>
          have hab : le a b = true := List.rel_of_pairwise_cons h (by simp)
          simp [orderedInsertBy, hab]

end SortLemmas

/-! ### Integer-keyed entry lists

The specification's reading "sorted in ascending numeric counter order"
for integer counters; related to the code's `sortEntries` below. -/

/-- View a list of integer-counter entries at the `JsNumber` type. -/
def toJsEntries (l : List (Int × String)) : List (JsNumber × String) :=
  l.map (fun p => (JsNumber.int p.1, p.2))

/-- Stable sort of integer-counter entries in ascending counter order
(the specification side of the reassembly statement). -/
def sortIntEntries (l : List (Int × String)) : List (Int × String) :=
  insertionSortBy (fun a b => decide (a.1 ≤ b.1)) l

theorem orderedInsertBy_toJs (a : Int × String) (l : List (Int × String)) :
    orderedInsertBy (fun p q => jsCmpLe p.1 q.1) (JsNumber.int a.1, a.2)
        (toJsEntries l) =
      toJsEntries (orderedInsertBy (fun p q => decide (p.1 ≤ q.1)) a l) := by
  induction l with
  | nil => rfl
  | cons b l ih =>
      by_cases h : a.1 ≤ b.1
      · simp [orderedInsertBy, toJsEntries, jsCmpLe, h]
      · simp only [orderedInsertBy, toJsEntries, List.map_cons, jsCmpLe,
          decide_eq_true_eq, h, if_false]
        simpa [toJsEntries] using ih

theorem sortEntries_toJs (l : List (Int × String)) :
    sortEntries (toJsEntries l) = toJsEntries (sortIntEntries l) := by
  induction l with
  | nil => rfl
  | cons a l ih =>
      show orderedInsertBy (fun p q => jsCmpLe p.1 q.1) (JsNumber.int a.1, a.2)
          (sortEntries (toJsEntries l)) = _
      rw [ih]
      exact orderedInsertBy_toJs a (sortIntEntries l)

theorem sortIntEntries_pairwise (l : List (Int × String)) :
    (sortIntEntries l).Pairwise (fun p q => p.1 ≤ q.1) := by
  have h := pairwise_insertionSortBy (fun a b : Int × String => decide (a.1 ≤ b.1))
    (fun x y hxy => by
      simp only [decide_eq_false_iff_not, Int.not_le] at hxy
      simpa using le_of_lt hxy)
    (fun x y z hxy hyz => by
      simp only [decide_eq_true_eq] at hxy hyz ⊢
      exact le_trans hxy hyz)
    l
  exact h.imp (fun hxy => by simpa using hxy)

theorem sortIntEntries_perm (l : List (Int × String)) :
    (sortIntEntries l).Perm l :=
  perm_insertionSortBy _ l

/-- Two arrival orders of the same duplicate-free entries sort to the
same list: the sorted order depends only on the multiset of entries. -/
theorem sortIntEntries_eq_of_perm {l₁ l₂ : List (Int × String)}
    (h : l₁.Perm l₂) (hnd : (l₂.map Prod.fst).Nodup) :
    sortIntEntries l₁ = sortIntEntries l₂ := by
  haveI : IsAntisymm (Int × String) (fun p q => p.1 < q.1) :=
    ⟨fun a b hab hba => absurd (lt_trans hab hba) (lt_irrefl _)⟩
  have hperm : (sortIntEntries l₁).Perm (sortIntEntries l₂) :=
    ((sortIntEntries_perm l₁).trans h).trans (sortIntEntries_perm l₂).symm
  have hstrict : ∀ l : List (Int × String), (l.map Prod.fst).Nodup →
      (sortIntEntries l).Sorted (fun p q => p.1 < q.1) := by
    intro l hl
    have hle := sortIntEntries_pairwise l
    have hndsort : ((sortIntEntries l).map Prod.fst).Nodup :=
      (((sortIntEntries_perm l).map Prod.fst).symm).nodup hl
    have hne : (sortIntEntries l).Pairwise (fun p q => p.1 ≠ q.1) :=
      List.pairwise_map.mp hndsort
    exact (hle.and hne).imp (fun hpq => lt_of_le_of_ne hpq.1 hpq.2)
  exact List.eq_of_perm_of_sorted hperm
    (hstrict l₁ ((h.map Prod.fst).symm.nodup hnd)) (hstrict l₂ hnd)

/-! ### Delta-event processing on a single turn -/

/-- A well-formed user transcript delta event for turn `t` with an
integer counter. -/
def deltaEvent (t : String) (c : Int) (x : String) : AgentEvent :=
  ⟨some "user.transcript.delta", some (.str t), some (.num (.int c)), some (.str x)⟩

/-- The aggregated user message `updateUserTranscript` emits for turn
`t` when the turn's chunk map is `m`. -/
def turnMessage (t : String) (m : List (JsNumber × String)) : Message :=
  ⟨.user,
   String.join (((sortEntries m).map (fun p => TranscriptChunk.mk p.1 p.2)).map
     (·.text)),
   some t,
   some ((sortEntries m).map (fun p => TranscriptChunk.mk p.1 p.2))⟩

/-- The whole processing state after a run of deltas for the single turn
`t` has produced chunk map `m`. -/
def turnState (t : String) (m : List (JsNumber × String)) : ProcState :=
  if m = [] then .init else ⟨[(t, m)], [turnMessage t m]⟩

theorem handleAgentMessage_deltaEvent (t : String) (c : Int) (x : String)
    (s : ProcState) :
    handleAgentMessage (deltaEvent t c x) s =
      updateUserTranscript (deltaEvent t c x) s := rfl

/-- One well-formed delta for turn `t` advances the single-turn state by
a `Map.set` on the turn's chunk map. -/
theorem handle_delta_turnState (t : String) (ht : t ≠ "") (c : Int) (x : String)
    (m : List (JsNumber × String)) :
    handleAgentMessage (deltaEvent t c x) (turnState t m) =
      turnState t (mapSet m (.int c) x) := by
  rw [handleAgentMessage_deltaEvent]
  by_cases hm : m = []
  · subst hm
    simp [turnState, updateUserTranscript, deltaEvent, jsToString, coerceCounter,
      eventContent, ht, mapGet, mapSet, ProcState.init, upsertMessage, updateFirst,
      turnMessage, sortEntries, mapSet_ne_nil]
  · simp only [turnState, if_neg hm, if_neg (mapSet_ne_nil m (JsNumber.int c) x)]
    simp [updateUserTranscript, deltaEvent, jsToString, coerceCounter, eventContent,
      ht, mapGet, mapSet, upsertMessage, updateFirst, upsertUpdate, turnMessage]

theorem processEvents_deltas (t : String) (ht : t ≠ "") (l : List (Int × String))
    (m : List (JsNumber × String)) :
    processEvents (l.map (fun p => deltaEvent t p.1 p.2)) (turnState t m) =
      turnState t (l.foldl (fun acc p => mapSet acc (.int p.1) p.2) m) := by
  induction l generalizing m with
  | nil => rfl
  | cons p l ih =>
      show processEvents (l.map (fun p => deltaEvent t p.1 p.2))
          (handleAgentMessage (deltaEvent t p.1 p.2) (turnState t m)) = _
      rw [handle_delta_turnState t ht p.1 p.2 m, ih]
      rfl

theorem mapGet_append_of_none {α β : Type} [DecidableEq α]
    {m : List (α × β)} {k : α} (m₂ : List (α × β)) (h : mapGet m k = none) :
    mapGet (m ++ m₂) k = mapGet m₂ k := by
  induction m with
  | nil => rfl
  | cons p rest ih =>
      by_cases hk : p.1 = k
      · simp [mapGet, hk] at h
      · simp only [mapGet, hk, if_false] at h ⊢
        simp [mapGet, hk, ih h]

/-- Folding `Map.set` over duplicate-free fresh keys records the entries
verbatim, in arrival order. -/
theorem foldl_mapSet_fresh (l : List (Int × String)) :
    ∀ m : List (JsNumber × String),
      (∀ k ∈ l.map Prod.fst, mapGet m (JsNumber.int k) = none) →
      (l.map Prod.fst).Nodup →
      l.foldl (fun acc p => mapSet acc (.int p.1) p.2) m = m ++ toJsEntries l := by
  induction l with
  | nil => intro m _ _; simp [toJsEntries]
  | cons p l ih =>
      intro m hfresh hnd
      have hp : mapGet m (JsNumber.int p.1) = none := hfresh p.1 (by simp)
      have hstep : mapSet m (JsNumber.int p.1) p.2 = m ++ [(JsNumber.int p.1, p.2)] :=
        mapSet_of_get_none m _ _ hp
      have hnd' : (l.map Prod.fst).Nodup := (List.nodup_cons.mp (by simpa using hnd)).2
      have hnotmem : p.1 ∉ l.map Prod.fst := (List.nodup_cons.mp (by simpa using hnd)).1
      have hfresh' : ∀ k ∈ l.map Prod.fst,
          mapGet (m ++ [(JsNumber.int p.1, p.2)]) (JsNumber.int k) = none := by
        intro k hk
        rw [mapGet_append_of_none _ (hfresh k (by simp [hk]))]
        have : p.1 ≠ k := fun hcontra => hnotmem (hcontra ▸ hk)
        simp [mapGet, this]
      calc ((p :: l).foldl (fun acc q => mapSet acc (.int q.1) q.2) m)
          = l.foldl (fun acc q => mapSet acc (.int q.1) q.2)
              (m ++ [(JsNumber.int p.1, p.2)]) := by rw [List.foldl_cons, hstep]
        _ = m ++ [(JsNumber.int p.1, p.2)] ++ toJsEntries l := ih _ hfresh' hnd'
        _ = m ++ toJsEntries (p :: l) := by simp [toJsEntries]

/-- C1: for every sequence of user transcript delta events for a single
turn whose counters are parseable numbers (here: integer counters,
pairwise distinct), the aggregated message text equals the concatenation
of the chunk texts sorted in ascending numeric counter order,
independent of arrival order: any arrival permutation of `entries`
yields the message whose text is the counter-sorted concatenation. -/
theorem user_deltas_reassemble_sorted (t : String) (ht : t ≠ "")
    (entries arrival : List (Int × String)) (hperm : arrival.Perm entries)
    (hnd : (entries.map Prod.fst).Nodup) (hne : arrival ≠ []) :
    (processEvents (arrival.map (fun p => deltaEvent t p.1 p.2))
        ProcState.init).messages =
      [⟨.user, String.join ((sortIntEntries entries).map Prod.snd), some t,
        some ((sortIntEntries entries).map (fun p => ⟨.int p.1, p.2⟩))⟩] := by
  have h0 : (ProcState.init : ProcState) = turnState t [] := by simp [turnState]
  rw [h0, processEvents_deltas t ht arrival []]
  have hndarr : (arrival.map Prod.fst).Nodup := ((hperm.map Prod.fst).symm).nodup hnd
  have hb : arrival.foldl (fun acc p => mapSet acc (.int p.1) p.2) [] =
      toJsEntries arrival := by
    simpa using foldl_mapSet_fresh arrival [] (fun k _ => rfl) hndarr
  rw [hb]
  have hnejs : toJsEntries arrival ≠ [] := by
    cases arrival with
    | nil => exact absurd rfl hne
    | cons a l => simp [toJsEntries]
  rw [turnState, if_neg hnejs]
  have hsort : sortEntries (toJsEntries arrival) =
      toJsEntries (sortIntEntries entries) := by
    rw [sortEntries_toJs, sortIntEntries_eq_of_perm hperm hnd]
  show [turnMessage t (toJsEntries arrival)] = _
  rw [turnMessage, hsort]
  simp [toJsEntries, List.map_map, Function.comp]
  exact congrArg String.join (List.map_congr_left fun p _ => rfl)

/-- Witness for C1 at the spec's example: counters `[2,0,1]` with
contents `["c","a","b"]` reassemble to `"abc"`. -/
theorem user_deltas_reassemble_sorted_witness :
    (processEvents ([((2 : Int), "c"), (0, "a"), (1, "b")].map
        (fun p => deltaEvent "t1" p.1 p.2)) ProcState.init).messages =
      [⟨.user, "abc", some "t1",
        some [⟨.int 0, "a"⟩, ⟨.int 1, "b"⟩, ⟨.int 2, "c"⟩]⟩] := by
  have h := user_deltas_reassemble_sorted "t1" (by decide)
    [(0, "a"), (1, "b"), (2, "c")] [(2, "c"), (0, "a"), (1, "b")]
    (by decide) (by decide) (by decide)
  exact h.trans (by decide)

/-! ### `upsertMessage` structure lemmas -/

theorem upsertMessage_cons_nomatch {next : Message} (replace : Bool)
    {m : Message} (l : List Message) {t : String} (hnt : next.turnId = some t)
    (ht : t ≠ "") (hm : ¬(m.turnId = some t ∧ m.role = next.role)) :
    upsertMessage next replace (m :: l) = m :: upsertMessage next replace l := by
  simp only [upsertMessage, hnt, if_neg ht, updateFirst, decide_eq_true_eq]
  rw [if_neg (by simpa using hm)]
  cases h : updateFirst
      (fun m => decide (m.turnId = some t) && decide (m.role = next.role))
      (upsertUpdate next replace) l with
  | none => simp [h]
  | some l' => simp [h]

theorem upsertMessage_cons_match {next : Message} (replace : Bool)
    {m : Message} (l : List Message) {t : String} (hnt : next.turnId = some t)
    (ht : t ≠ "") (hm : m.turnId = some t ∧ m.role = next.role) :
    upsertMessage next replace (m :: l) =
      upsertUpdate next replace m :: l := by
  simp only [upsertMessage, hnt, if_neg ht, updateFirst, decide_eq_true_eq]
  rw [if_pos (by simpa using hm)]

theorem upsertMessage_nil (next : Message) (replace : Bool) :
    upsertMessage next replace [] = [next] := by
  cases hnt : next.turnId with
  | none => simp [upsertMessage, hnt]
  | some t =>
      by_cases ht : t = ""
      · simp [upsertMessage, hnt, ht]
      · simp [upsertMessage, hnt, ht, updateFirst]

/-- Two replace-mode upserts with the same `(turnId, role)` key, both
carrying a `chunks` array, collapse to the last one. -/
theorem upsertMessage_replace_collapse {t : String} (ht : t ≠ "") (role : Role)
    (text₁ text₂ : String) (cs₁ cs₂ : List TranscriptChunk)
    (msgs : List Message) :
    upsertMessage ⟨role, text₂, some t, some cs₂⟩ true
        (upsertMessage ⟨role, text₁, some t, some cs₁⟩ true msgs) =
      upsertMessage ⟨role, text₂, some t, some cs₂⟩ true msgs := by
  induction msgs with
  | nil =>
      rw [upsertMessage_nil]
      rw [upsertMessage_cons_match true [] rfl ht (by simp)]
      rw [upsertMessage_nil]
      rfl
  | cons m rest ih =>
      by_cases hm : m.turnId = some t ∧ m.role = role
      · rw [upsertMessage_cons_match true rest rfl ht (by simpa using hm)]
        rw [upsertMessage_cons_match true rest rfl ht
          (by simpa [upsertUpdate] using hm)]
        rw [upsertMessage_cons_match true rest rfl ht (by simpa using hm)]
        rfl
      · rw [upsertMessage_cons_nomatch true rest rfl ht (by simpa using hm)]
        rw [upsertMessage_cons_nomatch true _ rfl ht (by simpa using hm)]
        rw [upsertMessage_cons_nomatch true rest rfl ht (by simpa using hm)]
        rw [ih]

/-! ### Duplicate counters (last write wins) -/

/-- A user transcript delta event for turn `t` with an arbitrary
present counter value (number or string). -/
def deltaEventWith (t : String) (cv : JsVal) (x : String) : AgentEvent :=
  ⟨some "user.transcript.delta", some (.str t), some cv, some (.str x)⟩

theorem updateUserTranscript_deltaEventWith (t : String) (ht : t ≠ "")
    (cv : JsVal) (x : String) (s : ProcState) :
    updateUserTranscript (deltaEventWith t cv x) s =
      ⟨mapSet s.chunkStore t
        (mapSet ((mapGet s.chunkStore t).getD []) (coerceCounter cv) x),
       upsertMessage
        (turnMessage t
          (mapSet ((mapGet s.chunkStore t).getD []) (coerceCounter cv) x))
        true s.messages⟩ := by
  simp [updateUserTranscript, deltaEventWith, jsToString, eventContent, ht,
    turnMessage]

/-- C7: recording two delta chunks with the same counter for the same
turn keeps only the later text: the state (chunk store and message
ledger alike, hence any reassembly) after both deltas equals the state
as if only the second delta had been processed. -/
theorem duplicate_counter_last_write_wins (s : ProcState) (t : String)
    (ht : t ≠ "") (cv : JsVal) (x₁ x₂ : String) :
    processEvents [deltaEventWith t cv x₁, deltaEventWith t cv x₂] s =
      processEvents [deltaEventWith t cv x₂] s := by
  show handleAgentMessage (deltaEventWith t cv x₂)
      (handleAgentMessage (deltaEventWith t cv x₁) s) =
    handleAgentMessage (deltaEventWith t cv x₂) s
  have hh : ∀ x (s' : ProcState),
      handleAgentMessage (deltaEventWith t cv x) s' =
        updateUserTranscript (deltaEventWith t cv x) s' := fun _ _ => rfl
  rw [hh, hh, hh,
    updateUserTranscript_deltaEventWith t ht cv x₁ s,
    updateUserTranscript_deltaEventWith t ht cv x₂,
    updateUserTranscript_deltaEventWith t ht cv x₂]
  dsimp only
  simp only [mapGet_mapSet_self, Option.getD_some, mapSet_mapSet_self,
    turnMessage]
  rw [upsertMessage_replace_collapse ht]

/-- Witness for C7 at a concrete duplicate-counter pair. -/
theorem duplicate_counter_last_write_wins_witness :
    processEvents [deltaEventWith "t" (.num (.int 3)) "old",
        deltaEventWith "t" (.num (.int 3)) "new"] ProcState.init =
      processEvents [deltaEventWith "t" (.num (.int 3)) "new"] ProcState.init :=
  duplicate_counter_last_write_wins ProcState.init "t" (by decide)
    (.num (.int 3)) "old" "new"

/-- C9: an inbound event whose `type` is absent or is none of the four
recognized event types leaves the whole processing state (message
ledger and chunk store) unchanged. -/
theorem unknown_event_type_no_change (e : AgentEvent) (s : ProcState)
    (h : e.type = none ∨ ∀ ty, e.type = some ty →
      ty ≠ "turn.end" ∧ ty ≠ "user.transcript.delta" ∧
      ty ≠ "user.transcript.interim_delta" ∧ ty ≠ "response.text") :
    handleAgentMessage e s = s := by
  cases hty : e.type with
  | none => simp [handleAgentMessage, hty]
  | some ty =>
      rcases h with h | h
      · rw [hty] at h; exact absurd h (by simp)
      · obtain ⟨h1, h2, h3, h4⟩ := h ty hty
        by_cases he : ty = ""
        · simp [handleAgentMessage, hty, he]
        · simp [handleAgentMessage, hty, he, h1, h2, h3, h4]

/-- Witness for C9 at an unrecognized event type and a non-trivial
state. -/
theorem unknown_event_type_no_change_witness :
    handleAgentMessage ⟨some "pong", some (.str "t"), some (.num (.int 1)),
        some (.str "x")⟩
      ⟨[("t", [(.int 0, "a")])], [⟨.user, "a", some "t", none⟩]⟩ =
      ⟨[("t", [(.int 0, "a")])], [⟨.user, "a", some "t", none⟩]⟩ :=
  unknown_event_type_no_change _ _
    (Or.inr (fun ty hty => by
      rw [Option.some.injEq] at hty
      subst hty
      exact ⟨by decide, by decide, by decide, by decide⟩))

/-- C10: a numeric `turn_id` `n` and its string rendering address the
same turn: every handler (delta, `turn.end`, `response.text`) produces
the same state for the two spellings, because each coerces the id with
`String(turn_id)` before use. -/
theorem turn_id_string_coercion (ty : Option String) (cnt cont : Option JsVal)
    (n : Int) (s : ProcState) :
    handleAgentMessage ⟨ty, some (.num (.int n)), cnt, cont⟩ s =
      handleAgentMessage ⟨ty, some (.str (toString n)), cnt, cont⟩ s := by
  cases ty with
  | none => rfl
  | some ty =>
      simp [handleAgentMessage, updateUserTranscript, appendAssistantMessage,
        jsToString, eventContent, coerceCounter]

/-- C6: a failing authorization exchange is converted to a structured
response: an upstream message containing "insufficient_balance" maps to
status 402 with the fixed error code, any other message is relayed with
status 500 (≠ 402). -/
theorem authorize_failure_structured (msg : String) :
    (jsIncludes msg "insufficient_balance" = true →
      postAuthorize (.thrown msg) = ⟨402, "insufficient_balance"⟩) ∧
    (jsIncludes msg "insufficient_balance" = false →
      postAuthorize (.thrown msg) = ⟨500, msg⟩ ∧
      (postAuthorize (.thrown msg)).status ≠ 402) := by
  constructor
  · intro h
    have hne : msg ≠ "" := by
      intro he
      rw [he] at h
      exact absurd h (by decide)
    simp [postAuthorize, authorizeCatch, hne, h]
  · intro h
    simp [postAuthorize, authorizeCatch, h]

/-- Witness for C6 on one insufficient-balance message and one generic
message. -/
theorem authorize_failure_structured_witness :
    postAuthorize (.thrown "err: insufficient_balance for org") =
        ⟨402, "insufficient_balance"⟩ ∧
      postAuthorize (.thrown "boom") = ⟨500, "boom"⟩ :=
  ⟨(authorize_failure_structured "err: insufficient_balance for org").1
      (by decide),
   ((authorize_failure_structured "boom").2 (by decide)).1⟩


/-- C8: a `turn.end` event carrying a turn id removes that turn's entry
from the chunk store and leaves the message ledger unchanged; a
subsequent delta for the same turn starts aggregation from an empty
chunk map (its chunk map after the delta holds exactly the new chunk). -/
theorem turn_end_clears_chunks_keeps_ledger (e : AgentEvent) (s : ProcState)
    (v : JsVal) (hty : e.type = some "turn.end") (hid : e.turn_id = some v) :
    (handleAgentMessage e s).messages = s.messages ∧
    (handleAgentMessage e s).chunkStore = mapDelete s.chunkStore (jsToString v) ∧
    mapGet (handleAgentMessage e s).chunkStore (jsToString v) = none ∧
    (jsToString v ≠ "" → ∀ cv x,
      mapGet (handleAgentMessage (deltaEventWith (jsToString v) cv x)
          (handleAgentMessage e s)).chunkStore (jsToString v) =
        some [(coerceCounter cv, x)]) := by
  have hstate : handleAgentMessage e s =
      ⟨mapDelete s.chunkStore (jsToString v), s.messages⟩ := by
    simp [handleAgentMessage, hty, hid, clearTurn]
  refine ⟨by rw [hstate], by rw [hstate], ?_, ?_⟩
  · rw [hstate]
    exact mapGet_mapDelete_self s.chunkStore (jsToString v)
  · intro ht cv x
    have hh : handleAgentMessage (deltaEventWith (jsToString v) cv x)
        (handleAgentMessage e s) =
        updateUserTranscript (deltaEventWith (jsToString v) cv x)
          (handleAgentMessage e s) := rfl
    rw [hh, updateUserTranscript_deltaEventWith (jsToString v) ht cv x]
    rw [hstate]
    dsimp only
    rw [mapGet_mapDelete_self s.chunkStore (jsToString v)]
    rw [mapGet_mapSet_self]
    rfl

/-- Witness for C8 on a concrete turn id and follow-up delta. -/
theorem turn_end_clears_chunks_keeps_ledger_witness :
    (handleAgentMessage ⟨some "turn.end", some (.str "t7"), none, none⟩
        ⟨[("t7", [(.int 0, "a")])], [⟨.user, "a", some "t7", none⟩]⟩).messages =
      [⟨.user, "a", some "t7", none⟩] ∧
    mapGet (handleAgentMessage
        (deltaEventWith "t7" (.num (.int 4)) "z")
        (handleAgentMessage ⟨some "turn.end", some (.str "t7"), none, none⟩
          ⟨[("t7", [(.int 0, "a")])],
           [⟨.user, "a", some "t7", none⟩]⟩)).chunkStore "t7" =
      some [(.int 4, "z")] := by
  have h := turn_end_clears_chunks_keeps_ledger
    ⟨some "turn.end", some (.str "t7"), none, none⟩
    ⟨[("t7", [(.int 0, "a")])], [⟨.user, "a", some "t7", none⟩]⟩
    (.str "t7") rfl rfl
  exact ⟨h.1, h.2.2.2 (by decide) (.num (.int 4)) "z"⟩



/-- Counterexample to C3: a delta event whose counter is the
non-numeric string "abc" does NOT take the fallback path: the content
is recorded in the chunk store under the `NaN` key and the emitted
message carries that chunk (the claim predicts empty chunks and no
recording). -/
theorem nonnumeric_counter_not_fallback_cex :
    (processEvents [⟨some "user.transcript.delta", some (.str "t"),
        some (.str "abc"), some (.str "x")⟩] ProcState.init).chunkStore =
      [("t", [(.nan, "x")])] ∧
    (processEvents [⟨some "user.transcript.delta", some (.str "t"),
        some (.str "abc"), some (.str "x")⟩] ProcState.init).messages =
      [⟨.user, "x", some "t", some [⟨.nan, "x"⟩]⟩] := by
  constructor <;> decide

/-- C3 as amended: the fallback full-replacement path is taken exactly
when `turn_id` is absent, coerces to the empty string, or
`delta_counter` is absent; a present but unparseable counter instead
coerces to `NaN` and is recorded as an ordinary chunk. -/
theorem delta_fallback_amended (e : AgentEvent) (s : ProcState)
    (hty : e.type = some "user.transcript.delta" ∨
      e.type = some "user.transcript.interim_delta") :
    (e.turn_id = none →
      handleAgentMessage e s =
        ⟨s.chunkStore,
         upsertMessage ⟨.user, eventContent e, none, some []⟩ true s.messages⟩) ∧
    (∀ v, e.turn_id = some v → jsToString v = "" →
      handleAgentMessage e s =
        ⟨s.chunkStore,
         upsertMessage ⟨.user, eventContent e, some "", some []⟩ true
           s.messages⟩) ∧
    (∀ v, e.turn_id = some v → jsToString v ≠ "" → e.delta_counter = none →
      handleAgentMessage e s =
        ⟨clearTurn (jsToString v) s.chunkStore,
         upsertMessage ⟨.user, eventContent e, some (jsToString v), some []⟩
           true s.messages⟩) ∧
    (∀ v cv, e.turn_id = some v → jsToString v ≠ "" → e.delta_counter = some cv →
      mapGet (handleAgentMessage e s).chunkStore (jsToString v) =
        some (mapSet ((mapGet s.chunkStore (jsToString v)).getD [])
          (coerceCounter cv) (eventContent e))) := by
  have hd : handleAgentMessage e s = updateUserTranscript e s := by
    rcases hty with h | h <;> simp [handleAgentMessage, h]
  refine ⟨?_, ?_, ?_, ?_⟩
  · intro hid
    rw [hd]
    cases hc : e.delta_counter with
    | none => simp [updateUserTranscript, hid, hc, eventContent]
    | some cv => simp [updateUserTranscript, hid, hc, eventContent]
  · intro v hid hv
    rw [hd]
    cases hc : e.delta_counter with
    | none => simp [updateUserTranscript, hid, hc, hv, eventContent]
    | some cv => simp [updateUserTranscript, hid, hc, hv, eventContent]
  · intro v hid hv hc
    rw [hd]
    simp [updateUserTranscript, hid, hc, hv, eventContent, clearTurn]
  · intro v cv hid hv hc
    rw [hd]
    simp only [updateUserTranscript, hid, hc]
    dsimp only [Option.map]
    rw [if_neg hv]
    dsimp only
    exact mapGet_mapSet_self _ _ _

/-- Witness for C3 (amended) at a concrete missing-counter delta. -/
theorem delta_fallback_amended_witness :
    handleAgentMessage
        ⟨some "user.transcript.delta", some (.str "t"), none, some (.str "hi")⟩
        ⟨[("t", [(.int 0, "a")])], []⟩ =
      ⟨[], [⟨.user, "hi", some "t", some []⟩]⟩ := by
  have h := (delta_fallback_amended
      ⟨some "user.transcript.delta", some (.str "t"), none, some (.str "hi")⟩
      ⟨[("t", [(.int 0, "a")])], []⟩ (Or.inl rfl)).2.2.1
    (.str "t") rfl (by decide) rfl
  exact h.trans (by decide)



/-- Counterexample to C4: when two messages share the key
`("t", user)`, the upsert updates the FIRST (oldest) one in place, not
the most recent one. -/
theorem upsert_most_recent_cex :
    upsertMessage ⟨.user, "NEW", some "t", some []⟩ true
        [⟨.user, "a", some "t", none⟩, ⟨.user, "b", some "t", none⟩] =
      [⟨.user, "NEW", some "t", some []⟩, ⟨.user, "b", some "t", none⟩] ∧
    upsertMessage ⟨.user, "NEW", some "t", some []⟩ true
        [⟨.user, "a", some "t", none⟩, ⟨.user, "b", some "t", none⟩] ≠
      [⟨.user, "a", some "t", none⟩, ⟨.user, "NEW", some "t", some []⟩] := by
  constructor <;> decide

/-- C4 as amended: an upsert with a non-null, non-empty `turnId`
updates the EARLIEST (first) message with matching `(turnId, role)` in
place, preserving its position; with no match it appends; a missing or
empty `turnId` always appends. -/
theorem upsert_locates_earliest (next : Message) (replace : Bool) :
    (∀ prev, next.turnId = none → upsertMessage next replace prev = prev ++ [next]) ∧
    (∀ prev, next.turnId = some "" →
      upsertMessage next replace prev = prev ++ [next]) ∧
    (∀ prev t, next.turnId = some t → t ≠ "" →
      (∀ m ∈ prev, ¬(m.turnId = some t ∧ m.role = next.role)) →
      upsertMessage next replace prev = prev ++ [next]) ∧
    (∀ l₁ c l₂ t, next.turnId = some t → t ≠ "" →
      (∀ m ∈ l₁, ¬(m.turnId = some t ∧ m.role = next.role)) →
      c.turnId = some t → c.role = next.role →
      upsertMessage next replace (l₁ ++ c :: l₂) =
        l₁ ++ upsertUpdate next replace c :: l₂) := by
  refine ⟨?_, ?_, ?_, ?_⟩
  · intro prev h
    simp [upsertMessage, h]
  · intro prev h
    simp [upsertMessage, h]
  · intro prev t hnt ht hno
    induction prev with
    | nil => exact upsertMessage_nil next replace
    | cons m rest ih =>
        rw [upsertMessage_cons_nomatch replace rest hnt ht (hno m (by simp))]
        rw [ih (fun m' hm' => hno m' (by simp [hm']))]
        rfl
  · intro l₁ c l₂ t hnt ht hno hct hcr
    induction l₁ with
    | nil =>
        rw [List.nil_append, upsertMessage_cons_match replace l₂ hnt ht
          ⟨hct, hcr⟩]
        rfl
    | cons m rest ih =>
        rw [List.cons_append,
          upsertMessage_cons_nomatch replace _ hnt ht (hno m (by simp))]
        rw [ih (fun m' hm' => hno m' (by simp [hm']))]
        rfl

/-- Witness for the amended C4: the earliest match (behind a non-match)
is updated in place, with no match the message is appended. -/
theorem upsert_locates_earliest_witness :
    upsertMessage ⟨.user, "X", some "t", some []⟩ true
        [⟨.assistant, "q", some "t", none⟩, ⟨.user, "old", some "t", some []⟩] =
      [⟨.assistant, "q", some "t", none⟩, ⟨.user, "X", some "t", some []⟩] ∧
    upsertMessage ⟨.user, "Y", none, none⟩ true
        [⟨.assistant, "q", some "t", none⟩] =
      [⟨.assistant, "q", some "t", none⟩, ⟨.user, "Y", none, none⟩] := by
  constructor
  · have h := (upsert_locates_earliest ⟨.user, "X", some "t", some []⟩ true).2.2.2
      [⟨.assistant, "q", some "t", none⟩] ⟨.user, "old", some "t", some []⟩ []
      "t" rfl (by decide) (by decide) rfl rfl
    exact h.trans (by decide)
  · exact (upsert_locates_earliest ⟨.user, "Y", none, none⟩ true).1
      [⟨.assistant, "q", some "t", none⟩] rfl

/-- Counterexample to C5: `onDisconnect` clears the chunk store but
does NOT clear the message ledger — it appends a system message to the
existing messages. -/
theorem disconnect_keeps_ledger_cex :
    (onDisconnect ⟨⟨[("t", [(.int 0, "x")])], [⟨.user, "x", some "t", none⟩]⟩,
        true, none⟩).proc.chunkStore = [] ∧
    (onDisconnect ⟨⟨[("t", [(.int 0, "x")])], [⟨.user, "x", some "t", none⟩]⟩,
        true, none⟩).proc.messages ≠ [] ∧
    (onDisconnect ⟨⟨[("t", [(.int 0, "x")])], [⟨.user, "x", some "t", none⟩]⟩,
        true, none⟩).proc.messages =
      [⟨.user, "x", some "t", none⟩, ⟨.system, "Disconnected", none, none⟩] := by
  refine ⟨by decide, by decide, by decide⟩

/-- C5 as amended: disconnect clears the chunk store and appends a
system "Disconnected" message, leaving prior messages in place; the
message ledger (and error banner) is instead cleared by the connect
click when a connect is allowed. -/
theorem disconnect_clears_chunks_connect_clears_ledger (s : UiState) :
    (onDisconnect s).proc.chunkStore = [] ∧
    (onDisconnect s).proc.messages =
      s.proc.messages ++ [⟨.system, "Disconnected", none, none⟩] ∧
    (s.isSessionActive = false →
      handleConnectClick false s = ⟨⟨[], []⟩, false, none⟩) := by
  refine ⟨rfl, rfl, ?_⟩
  intro h
  simp [handleConnectClick, h]

/-- Witness for the amended C5 at a populated state. -/
theorem disconnect_clears_chunks_connect_clears_ledger_witness :
    (onDisconnect ⟨⟨[("t", [(.int 0, "x")])], [⟨.user, "x", some "t", none⟩]⟩,
        false, some "e"⟩).proc.chunkStore = [] ∧
    handleConnectClick false
        ⟨⟨[("t", [(.int 0, "x")])], [⟨.user, "x", some "t", none⟩]⟩,
         false, some "e"⟩ =
      ⟨⟨[], []⟩, false, none⟩ :=
  ⟨(disconnect_clears_chunks_connect_clears_ledger _).1,
   (disconnect_clears_chunks_connect_clears_ledger
      ⟨⟨[("t", [(.int 0, "x")])], [⟨.user, "x", some "t", none⟩]⟩,
       false, some "e"⟩).2.2 rfl⟩



/-! ### The text/chunks coherence invariant (C2) -/

/-- Concatenation of a chunk sequence's texts, in stored order. -/
def chunkConcat (cs : List TranscriptChunk) : String :=
  String.join (cs.map (·.text))

/-- The chunk sequence stably sorted in ascending counter order (the
specification's reading of "chunks sorted by counter"). -/
def sortChunks (cs : List TranscriptChunk) : List TranscriptChunk :=
  insertionSortBy (fun a b => jsCmpLe a.counter b.counter) cs

/-- Forget the `JsNumber` wrapper on all-integer entries (`nan` mapped
arbitrarily to 0; only used under an all-integer hypothesis). -/
def unJsEntries (l : List (JsNumber × String)) : List (Int × String) :=
  l.map (fun p => (match p.1 with | .int n => n | .nan => 0, p.2))

theorem toJs_unJs (l : List (JsNumber × String))
    (h : ∀ p ∈ l, p.1 ≠ JsNumber.nan) : toJsEntries (unJsEntries l) = l := by
  induction l with
  | nil => rfl
  | cons p rest ih =>
      have hp : p.1 ≠ JsNumber.nan := h p (by simp)
      cases hn : p.1 with
      | nan => exact absurd hn hp
      | int n =>
          simp only [unJsEntries, toJsEntries, List.map_cons, hn]
          refine congrArg₂ _ ?_ ?_
          · cases p; simp_all
          · exact ih (fun q hq => h q (by simp [hq]))

theorem pairwise_sortEntries_of_int (l : List (JsNumber × String))
    (h : ∀ p ∈ l, p.1 ≠ JsNumber.nan) :
    (sortEntries l).Pairwise (fun p q => jsCmpLe p.1 q.1 = true) := by
  have hjs : l = toJsEntries (unJsEntries l) := (toJs_unJs l h).symm
  rw [hjs, sortEntries_toJs]
  have hp := sortIntEntries_pairwise (unJsEntries l)
  rw [toJsEntries]
  refine List.pairwise_map.mpr (hp.imp ?_)
  intro a b hab
  simpa [jsCmpLe] using hab

/-- The per-message coherence property maintained by the handlers: a
user message with a turn id and a non-empty chunk list has `text` equal
to the concatenation of its chunks in stored order, and (when all
counters are numeric) the stored chunks are ascending in counter
order. -/
def MsgInv (m : Message) : Prop :=
  ∀ t cs, m.role = .user → m.turnId = some t → m.chunks = some cs → cs ≠ [] →
    m.text = chunkConcat cs ∧
    ((∀ c ∈ cs, c.counter ≠ .nan) →
      cs.Pairwise (fun a b => jsCmpLe a.counter b.counter = true))

theorem msgInv_empty_chunks (m : Message) (h : m.chunks = some []) :
    MsgInv m := by
  intro t cs _ _ hcs hne
  rw [h] at hcs
  cases hcs
  exact absurd rfl hne

theorem msgInv_assistant (m : Message) (h : m.role = .assistant) :
    MsgInv m := by
  intro t cs hrole
  rw [h] at hrole
  cases hrole

/-- Any message whose `text`/`chunks` pair was produced by the
aggregation path satisfies the invariant. -/
theorem msgInv_agg (m : Message)
    (hM : ∃ M : List (JsNumber × String),
      m.chunks = some ((sortEntries M).map (fun p => TranscriptChunk.mk p.1 p.2)) ∧
      m.text = String.join
        (((sortEntries M).map (fun p => TranscriptChunk.mk p.1 p.2)).map
          (·.text))) :
    MsgInv m := by
  obtain ⟨M, hchunks, htext⟩ := hM
  intro t cs _ _ hcs hne
  rw [hchunks] at hcs
  rw [Option.some.injEq] at hcs
  subst hcs
  constructor
  · rw [htext]; rfl
  · intro hint
    have hM' : ∀ p ∈ sortEntries M, p.1 ≠ JsNumber.nan := by
      intro p hp
      exact hint ⟨p.1, p.2⟩ (List.mem_map.mpr ⟨p, hp, rfl⟩)
    have hMall : ∀ p ∈ M, p.1 ≠ JsNumber.nan := by
      intro p hp
      exact hM' p ((perm_insertionSortBy _ M).mem_iff.mpr hp)
    have hpair := pairwise_sortEntries_of_int M hMall
    exact List.pairwise_map.mpr (hpair.imp (fun hab => hab))

/-- Message membership after an upsert: the message was already there,
is the new message, or is the in-place update of a previous message
with the same role as the new one. -/
theorem mem_upsertMessage {next : Message} {replace : Bool}
    {prev : List Message} {m : Message}
    (h : m ∈ upsertMessage next replace prev) :
    m ∈ prev ∨ m = next ∨
      ∃ c, c ∈ prev ∧ c.role = next.role ∧ m = upsertUpdate next replace c := by
  cases hnt : next.turnId with
  | none =>
      rw [upsertMessage, hnt] at h
      rcases List.mem_append.mp h with h | h
      · exact Or.inl h
      · exact Or.inr (Or.inl (by simpa using h))
  | some t =>
      by_cases ht : t = ""
      · rw [upsertMessage, hnt] at h
        dsimp only at h
        rw [if_pos ht] at h
        rcases List.mem_append.mp h with h | h
        · exact Or.inl h
        · exact Or.inr (Or.inl (by simpa using h))
      · induction prev with
        | nil =>
            rw [upsertMessage_nil] at h
            exact Or.inr (Or.inl (by simpa using h))
        | cons a rest ih =>
            by_cases ha : a.turnId = some t ∧ a.role = next.role
            · rw [upsertMessage_cons_match replace rest hnt ht ha] at h
              rcases List.mem_cons.mp h with h | h
              · exact Or.inr (Or.inr ⟨a, by simp, ha.2, h⟩)
              · exact Or.inl (by simp [h])
            · rw [upsertMessage_cons_nomatch replace rest hnt ht ha] at h
              rcases List.mem_cons.mp h with h | h
              · exact Or.inl (by simp [h])
              · rcases ih h with h' | h' | ⟨c, hc, hcr, hm⟩
                · exact Or.inl (by simp [h'])
                · exact Or.inr (Or.inl h')
                · exact Or.inr (Or.inr ⟨c, by simp [hc], hcr, hm⟩)

/-- Invariant transfer through one upsert. -/
theorem msgInv_upsert (next : Message) (replace : Bool)
    (prev : List Message) (hprev : ∀ m ∈ prev, MsgInv m)
    (hnext : MsgInv next)
    (hupd : ∀ c, c.role = next.role → MsgInv (upsertUpdate next replace c)) :
    ∀ m ∈ upsertMessage next replace prev, MsgInv m := by
  intro m hm
  rcases mem_upsertMessage hm with h | h | ⟨c, hc, hcr, hm'⟩
  · exact hprev m h
  · rw [h]; exact hnext
  · rw [hm']; exact hupd c hcr



theorem msgInv_updateUserTranscript (e : AgentEvent) (s : ProcState)
    (h : ∀ m ∈ s.messages, MsgInv m) :
    ∀ m ∈ (updateUserTranscript e s).messages, MsgInv m := by
  cases hid : e.turn_id with
  | none =>
      cases hc : e.delta_counter with
      | none =>
          have hm : (updateUserTranscript e s).messages =
              upsertMessage ⟨.user, eventContent e, none, some []⟩ true
                s.messages := by
            simp [updateUserTranscript, hid, hc]
          rw [hm]
          exact msgInv_upsert _ _ _ h (msgInv_empty_chunks _ rfl)
            (fun c _ => msgInv_empty_chunks _ rfl)
      | some cv =>
          have hm : (updateUserTranscript e s).messages =
              upsertMessage ⟨.user, eventContent e, none, some []⟩ true
                s.messages := by
            simp [updateUserTranscript, hid, hc]
          rw [hm]
          exact msgInv_upsert _ _ _ h (msgInv_empty_chunks _ rfl)
            (fun c _ => msgInv_empty_chunks _ rfl)
  | some v =>
      by_cases hv : jsToString v = ""
      · cases hc : e.delta_counter with
        | none =>
            have hm : (updateUserTranscript e s).messages =
                upsertMessage ⟨.user, eventContent e, some (jsToString v), some []⟩
                  true s.messages := by
              simp [updateUserTranscript, hid, hc, hv]
            rw [hm]
            exact msgInv_upsert _ _ _ h (msgInv_empty_chunks _ rfl)
              (fun c _ => msgInv_empty_chunks _ rfl)
        | some cv =>
            have hm : (updateUserTranscript e s).messages =
                upsertMessage ⟨.user, eventContent e, some (jsToString v), some []⟩
                  true s.messages := by
              simp [updateUserTranscript, hid, hc, hv]
            rw [hm]
            exact msgInv_upsert _ _ _ h (msgInv_empty_chunks _ rfl)
              (fun c _ => msgInv_empty_chunks _ rfl)
      · cases hc : e.delta_counter with
        | none =>
            have hm : (updateUserTranscript e s).messages =
                upsertMessage ⟨.user, eventContent e, some (jsToString v), some []⟩
                  true s.messages := by
              simp [updateUserTranscript, hid, hc, hv]
            rw [hm]
            exact msgInv_upsert _ _ _ h (msgInv_empty_chunks _ rfl)
              (fun c _ => msgInv_empty_chunks _ rfl)
        | some cv =>
            have hm : (updateUserTranscript e s).messages =
                upsertMessage
                  (turnMessage (jsToString v)
                    (mapSet ((mapGet s.chunkStore (jsToString v)).getD [])
                      (coerceCounter cv) (eventContent e)))
                  true s.messages := by
              simp [updateUserTranscript, hid, hc, hv, turnMessage]
            rw [hm]
            refine msgInv_upsert _ _ _ h (msgInv_agg _ ⟨_, rfl, rfl⟩)
              (fun c _ => msgInv_agg _ ⟨_, rfl, rfl⟩)

theorem msgInv_step (e : AgentEvent) (s : ProcState)
    (h : ∀ m ∈ s.messages, MsgInv m) :
    ∀ m ∈ (handleAgentMessage e s).messages, MsgInv m := by
  cases hty : e.type with
  | none => simpa [handleAgentMessage, hty] using h
  | some ty =>
      by_cases h0 : ty = ""
      · simpa [handleAgentMessage, hty, h0] using h
      by_cases h1 : ty = "turn.end"
      · cases hid : e.turn_id with
        | none => simpa [handleAgentMessage, hty, h0, h1, hid] using h
        | some v => simpa [handleAgentMessage, hty, h0, h1, hid] using h
      by_cases h2 : ty = "user.transcript.delta" ∨ ty = "user.transcript.interim_delta"
      · have hd : handleAgentMessage e s = updateUserTranscript e s := by
          rcases h2 with h2 | h2 <;> simp [handleAgentMessage, hty, h0, h1, h2]
        rw [hd]
        exact msgInv_updateUserTranscript e s h
      by_cases h3 : ty = "response.text"
      · have hd : handleAgentMessage e s = appendAssistantMessage e s := by
          push_neg at h2
          simp [handleAgentMessage, hty, h0, h1, h2.1, h2.2, h3]
        rw [hd]
        have hm : (appendAssistantMessage e s).messages =
            upsertMessage ⟨.assistant, eventContent e,
              e.turn_id.map jsToString, none⟩ false s.messages := rfl
        rw [hm]
        exact msgInv_upsert _ _ _ h (msgInv_assistant _ rfl)
          (fun c hcr => msgInv_assistant _ hcr)
      · push_neg at h2
        simpa [handleAgentMessage, hty, h0, h1, h2.1, h2.2, h3] using h

theorem msgInv_processEvents_from (events : List AgentEvent) :
    ∀ s : ProcState, (∀ m ∈ s.messages, MsgInv m) →
      ∀ m ∈ (processEvents events s).messages, MsgInv m := by
  induction events with
  | nil => intro s h; exact h
  | cons e rest ih =>
      intro s h
      exact ih (handleAgentMessage e s) (msgInv_step e s h)



/-- Counterexample to C2: after one fallback delta (missing counter)
the ledger holds a user message with a turn id whose `text` is "hello"
but whose chunks are empty, so `text` differs from the concatenation of
its (sorted) chunks, which is `""`. -/
theorem fallback_breaks_text_chunks_invariant_cex :
    (processEvents [⟨some "user.transcript.delta", some (.str "t"), none,
        some (.str "hello")⟩] ProcState.init).messages =
      [⟨.user, "hello", some "t", some []⟩] ∧
    ("hello" : String) ≠ chunkConcat (sortChunks []) := by
  constructor <;> decide

/-- C2 as amended: after processing any sequence of inbound events from
the initial state, every user message with a turn id and a NON-EMPTY
chunk list has `text` equal to the concatenation of its chunks in
stored order, and — whenever all its counters are numeric — equal to
the concatenation of its chunks sorted ascending by counter.  (Fallback
messages carry empty chunks and are exempt: their `text` is the raw
event content.) -/
theorem ledger_text_matches_chunks (events : List AgentEvent) :
    ∀ m ∈ (processEvents events ProcState.init).messages, m.role = .user →
      ∀ t, m.turnId = some t → ∀ cs, m.chunks = some cs → cs ≠ [] →
      m.text = chunkConcat cs ∧
      ((∀ c ∈ cs, c.counter ≠ .nan) → m.text = chunkConcat (sortChunks cs)) := by
  intro m hm hrole t htid cs hcs hne
  have hinv := msgInv_processEvents_from events ProcState.init
    (by intro m hm'; cases hm') m hm t cs hrole htid hcs hne
  refine ⟨hinv.1, fun hint => ?_⟩
  have hpair := hinv.2 hint
  rw [sortChunks, insertionSortBy_of_pairwise _ hpair]
  exact hinv.1

/-- Witness for the amended C2 at the spec's two-chunk example. -/
theorem ledger_text_matches_chunks_witness :
    ("Hi there" : String) =
      chunkConcat [⟨.int 0, "Hi "⟩, ⟨.int 1, "there"⟩] ∧
    ("Hi there" : String) =
      chunkConcat (sortChunks [⟨.int 0, "Hi "⟩, ⟨.int 1, "there"⟩]) := by
  have h := ledger_text_matches_chunks
    [deltaEvent "t1" 0 "Hi ", deltaEvent "t1" 1 "there"]
    ⟨.user, "Hi there", some "t1", some [⟨.int 0, "Hi "⟩, ⟨.int 1, "there"⟩]⟩
    (by decide) rfl "t1" rfl [⟨.int 0, "Hi "⟩, ⟨.int 1, "there"⟩] rfl (by decide)
  exact ⟨h.1, h.2 (by decide)⟩


end VoiceAgent
